import Mathlib

/-!
# Verification of the SoundMath chord-detection pipeline

A shallow embedding of the `ChordDetector` class (the elaborate, weighted-scoring
variant): `detectChord`, `isDataMostlySilent`, `findFrequencyPeaks`,
`findClosestNote`, `identifyChord` and `calculateChordNotes`, together with the
static chord-formula table.

Modelling conventions:
* `Uint8Array` magnitude spectra become `List ℕ` (values 0–255 in practice; no
  bound is needed for the statements proved here).  Out-of-range reads, which in
  the source language yield an absorbing non-value, are modelled as `0`; every
  read that matters for the proved statements is in range.
* IEEE doubles are modelled exactly: values produced by field arithmetic stay in
  `ℚ`, and the transcendental operations of the source (`Math.log2`, `Math.exp`,
  `Math.pow(2, 1/12)`) are modelled by the corresponding exact real functions
  `Real.logb 2`, `Real.exp`, `Real.rpow`.  Where the source can produce
  non-finite values there are two layers: the main definitions idealize them
  (division by zero is 0, the Lean convention), and an `F`-suffixed refinement
  layer (`peakOffsetF`, `findFrequencyPeaksF`, `findClosestNoteF`) tracks the
  source's NaN results as `none` and its clamped `±Infinity` parabolic offsets
  as the exact `±1/2`.  Each idealized definition notes its divergence from the
  source where one exists.
* `identifyChord` only performs field arithmetic and comparisons on the note
  frequencies, so it is defined generically over a linear ordered field `K`:
  instantiated at `ℚ` it is fully executable, and the full pipeline uses it at
  `K = ℝ` on the exact retuned note frequencies.
* JavaScript's stable `Array.prototype.sort` with a numeric comparator is
  modelled by `List.insertionSort` with the corresponding non-strict relation,
  which is the same stable sort.
-/

/-- `name.split('/')` on the character list: split at every `'/'`. -/
def splitSlash : List Char → List (List Char)
  | [] => [[]]
  | c :: rest =>
    if c = '/' then [] :: splitSlash rest
    else
      match splitSlash rest with
      | [] => [[c]]
      | g :: gs => (c :: g) :: gs

/-- The enharmonic variants of a note name: `note.includes('/') ? note.split('/') : [note]`
(for a slash-free string, `split` returns the one-element list, so both branches agree). -/
def variants (s : String) : List String := (splitSlash s.data).map String.mk

/-- `name.split('/')[0]`: the first enharmonic spelling. -/
def firstVariant (s : String) : String := (variants s).headD ""

/-- `Array.from(new Set(l))`: deduplication keeping first occurrences. -/
def uniqueFirst (l : List String) : List String :=
  l.foldl (fun acc s => if s ∈ acc then acc else acc ++ [s]) []

/-- The `CHORD_FORMULAS` table, in the order `Object.entries` actually
enumerates it: the integer-like keys "6" and "7" come first in ascending
numeric order (array-index property keys are hoisted), followed by the
remaining string keys in object-literal insertion order. -/
def chordFormulas : List (String × List String) :=
  [ ("6", ["1", "3", "5", "6"]),
    ("7", ["1", "3", "5", "b7"]),
    ("", ["1", "3", "5"]),
    ("m", ["1", "b3", "5"]),
    ("maj7", ["1", "3", "5", "7"]),
    ("m7", ["1", "b3", "5", "b7"]),
    ("dim", ["1", "b3", "b5"]),
    ("aug", ["1", "3", "#5"]),
    ("sus4", ["1", "4", "5"]),
    ("sus2", ["1", "2", "5"]),
    ("m6", ["1", "b3", "5", "6"]) ]

/-- The sharp-based note-name table used by `calculateChordNotes`. -/
def noteNamesSharp : List String :=
  ["C", "C#", "D", "D#", "E", "F"] ++ ["F#", "G", "G#", "A", "A#", "B"]

/-- The `intervalToSemitones` table of `calculateChordNotes`. -/
def intervalSemis : List (String × ℕ) :=
  [("1", 0), ("b2", 1), ("2", 2), ("b3", 3), ("3", 4), ("4", 5),
   ("b5", 6), ("5", 7), ("#5", 8), ("6", 9), ("b7", 10), ("7", 11)]

/-- `ChordDetector.calculateChordNotes`: transpose an interval formula from a root
note name, producing expected pitch-class names (empty for an unknown root). -/
def calculateChordNotes (rootNote : String) (formula : List String) : List String :=
  if rootNote = "" then []
  else
    let root := firstVariant rootNote
    match noteNamesSharp.findIdx? (· == root) with
    | none => []
    | some rootIndex =>
      formula.map fun interval =>
        noteNamesSharp.getD ((rootIndex + ((intervalSemis.lookup interval).getD 0)) % 12) ""

/-- A detected note: name (possibly a dual enharmonic spelling), octave, and the
retuned frequency, generic in the number type carrying the frequency. -/
structure ChordNote (K : Type) where
  name : String
  octave : ℤ
  frequency : K
  deriving DecidableEq

/-- The per-note record built by `identifyChord`: name, frequency and the
bass-priority weight `1 / max(frequency, 80)`. -/
structure NoteInfo (K : Type) where
  name : String
  frequency : K
  weight : K
  deriving DecidableEq

/-- Accumulator of the best chord candidate found so far (score, name, formula). -/
structure BestMatch (K : Type) where
  score : K
  name : String
  formula : String
  deriving DecidableEq

variable {K : Type} [LinearOrderedField K]

/-- Whether any enharmonic variant of a detected note name occurs in the
expected note list of a candidate chord. -/
def noteMatches (expected : List String) (name : String) : Bool :=
  (variants name).any fun v => expected.contains v

/-- The matching loop of `identifyChord`: fold over the (sorted) note records,
adding `2 * weight` for a matched note and subtracting `0.5 * weight` for an
unmatched one, while counting matches. -/
def scoreNotes (sorted : List (NoteInfo K)) (expected : List String) : K × ℕ :=
  sorted.foldl
    (fun acc info =>
      if noteMatches expected info.name then (acc.1 + info.weight * 2, acc.2 + 1)
      else (acc.1 - info.weight * (1 / 2), acc.2))
    (0, 0)

/-- The essential scale degrees (root, either third, fifth). -/
def essentialIntervals : List String := ["1", "3", "b3", "5"]

/-- The missing-essential-degree count of `identifyChord`: for each essential
interval of the formula, check whether its transposed note name occurs among the
detected names (any variant); count the ones that do not. -/
def countMissingEssential (root : String) (formula : List String) (baseNotes : List String) : ℕ :=
  formula.foldl
    (fun cnt interval =>
      if essentialIntervals.contains interval then
        match (calculateChordNotes root [interval]).head? with
        | some nfi =>
          if baseNotes.any (fun note => (variants note).contains nfi) then cnt else cnt + 1
        | none => cnt + 1
      else cnt)
    0

/-- The full score and match count of one `(root, formula)` candidate:
the weighted match score minus `2 *` the missing-essential count. -/
def candidateScore (sorted : List (NoteInfo K)) (root : String) (formula : List String) :
    K × ℕ :=
  let sm := scoreNotes sorted (calculateChordNotes root formula)
  (sm.1 - (countMissingEssential root formula (sorted.map (·.name)) : K) * 2, sm.2)

/-- One step of the best-candidate search: a candidate replaces the current best
iff it matches at least `min 2 formula.length` notes and its score is strictly
greater. -/
def evalCandidate (sorted : List (NoteInfo K)) (best : BestMatch K)
    (root sfx : String) (formula : List String) : BestMatch K :=
  let sc := candidateScore sorted root formula
  if min 2 formula.length ≤ sc.2 ∧ best.score < sc.1 then
    ⟨sc.1, root ++ sfx, String.intercalate "-" formula⟩
  else best

/-- The triple loop of `identifyChord`: roots in order, both enharmonic variants
of each root, all chord formulas in table order; initial best score `-1`. -/
def bestChordMatch (sorted : List (NoteInfo K)) (roots : List String) : BestMatch K :=
  roots.foldl
    (fun best rootNote =>
      (variants rootNote).foldl
        (fun best root =>
          chordFormulas.foldl (fun best sf => evalCandidate sorted best root sf.1 sf.2) best)
        best)
    ⟨-1, "", ""⟩

/-- The `noteInfo` array of `identifyChord`: name, frequency, and weight
`1 / max(frequency, 80)`. -/
def noteInfoOf (notes : List (ChordNote K)) : List (NoteInfo K) :=
  notes.map fun n => ⟨n.name, n.frequency, 1 / max n.frequency 80⟩

/-- `noteInfo.sort((a, b) => b.weight - a.weight)`: stable sort by descending weight. -/
def sortedInfoOf (notes : List (ChordNote K)) : List (NoteInfo K) :=
  List.insertionSort (fun a b => b.weight ≤ a.weight) (noteInfoOf notes)

/-- The deduplicated root candidate list of `identifyChord`: names of the three
best-weighted notes, then the remaining names, with empty names dropped and
duplicates removed keeping first occurrences. -/
def rootsOf (notes : List (ChordNote K)) : List String :=
  let sorted := sortedInfoOf notes
  uniqueFirst
    ((((sorted.take 3).map (·.name)) ++ ((sorted.map (·.name)).drop 3)).filter (· ≠ ""))

/-- The best candidate over all roots and formulas for a given input note list. -/
def bestOf (notes : List (ChordNote K)) : BestMatch K :=
  bestChordMatch (sortedInfoOf notes) (rootsOf notes)

/-- `ChordDetector.identifyChord`: empty input yields `("", "")`; a single note
yields its first spelling with formula `"1"`; otherwise the best-scoring
`(root, formula)` candidate if its score is positive, else the first input
note's first spelling with formula `"1"`. -/
def identifyChord (notes : List (ChordNote K)) : String × String :=
  match notes with
  | [] => ("", "")
  | [note] => (firstVariant note.name, "1")
  | note0 :: note1 :: rest =>
    let best := bestOf (note0 :: note1 :: rest)
    if 0 < best.score then (best.name, best.formula)
    else (firstVariant note0.name, "1")

/-- The C4, E4, G4 input notes of the C-major test (reference frequencies). -/
def cMajorNotes : List (ChordNote ℚ) :=
  [⟨"C", 4, 26163/100⟩, ⟨"E", 4, 32963/100⟩, ⟨"G", 4, 392⟩]

/-- The A4, C5, E5 input notes of the A-minor test (reference frequencies). -/
def aMinorNotes : List (ChordNote ℚ) :=
  [⟨"A", 4, 440⟩, ⟨"C", 5, 52325/100⟩, ⟨"E", 5, 65925/100⟩]

/-- A two-note input (a high C above a low C#) on which no chord candidate
scores positively. -/
def fallbackNotes : List (ChordNote ℚ) :=
  [⟨"C", 5, 52325/100⟩, ⟨"C#", 4, 27718/100⟩]

set_option maxRecDepth 20000 in
/-- C3: on notes C4, E4, G4 `identifyChord` does NOT return the C-major chord:
the "C6" candidate attains exactly the same score as the C-major candidate
(both match all three input notes with no missing essential degree), and since
`Object.entries` enumerates the integer-like template keys "6" and "7" before
the insertion-ordered rest, the C6 candidate is found first and the
strictly-greater-score tie-break keeps it — the result is `("C6", "1-3-5-6")`,
not the `("C", "1-3-5")` of the claim and of the spec's test. -/
theorem c3_c_major_triad_names_c6 :
    identifyChord cMajorNotes = ("C6", "1-3-5-6") ∧
    identifyChord cMajorNotes ≠ ("C", "1-3-5") ∧
    (candidateScore (sortedInfoOf cMajorNotes) "C" ["1", "3", "5"]).1 =
      (candidateScore (sortedInfoOf cMajorNotes) "C" ["1", "3", "5", "6"]).1 := by
  refine ⟨by with_unfolding_all decide, by with_unfolding_all decide, ?_⟩
  exact le_antisymm (not_lt.mp (by with_unfolding_all decide))
    (not_lt.mp (by with_unfolding_all decide))

set_option maxRecDepth 20000 in
/-- C4: on notes A4, C5, E5 `identifyChord` returns the A-minor chord
`("Am", "1-b3-5")` (in particular not plain "A"): the fully matched minor
template outscores the major template, which is penalized for the unmatched C
and the missing essential major third. -/
theorem c4_a_minor_disambiguation :
    identifyChord aMinorNotes = ("Am", "1-b3-5") ∧
    (candidateScore (sortedInfoOf aMinorNotes) "A" ["1", "3", "5"]).1 <
      (candidateScore (sortedInfoOf aMinorNotes) "A" ["1", "b3", "5"]).1 := by
  refine ⟨by with_unfolding_all decide, by with_unfolding_all decide⟩

/-- C5 (amended): when no `(root, formula)` candidate attains a positive score
(so the final best score is not positive), `identifyChord` on two or more notes
falls back to the *first input note*: it returns that note's first enharmonic
spelling with formula `"1"`.  (The source indexes the original `notes` array,
not the weight-sorted copy.) -/
theorem c5_fallback_returns_first_input_note (n0 n1 : ChordNote K)
    (rest : List (ChordNote K)) (h : (bestOf (n0 :: n1 :: rest)).score ≤ 0) :
    identifyChord (n0 :: n1 :: rest) = (firstVariant n0.name, "1") := by
  simp only [identifyChord]
  rw [if_neg (not_lt.mpr h)]

set_option maxRecDepth 20000 in
theorem c5_fallback_returns_first_input_note_witness :
    (bestOf fallbackNotes).score ≤ 0 ∧ identifyChord fallbackNotes = ("C", "1") := by
  have h0 : (bestOf fallbackNotes).score ≤ 0 := by with_unfolding_all decide
  refine ⟨h0, ?_⟩
  have h := c5_fallback_returns_first_input_note (K := ℚ)
    ⟨"C", 5, 52325/100⟩ ⟨"C#", 4, 27718/100⟩ [] h0
  exact h.trans (by with_unfolding_all decide)

set_option maxRecDepth 20000 in
/-- C5 counterexample: on `fallbackNotes` no candidate scores positively and the
*second* input note (C#4, the lower note) is the strictly best-weighted note,
yet `identifyChord` returns `("C", "1")` — the first input note's pitch class —
and not `("C#", "1")` as the claim demands. -/
theorem c5_counterexample :
    identifyChord fallbackNotes = ("C", "1") ∧
    identifyChord fallbackNotes ≠ ("C#", "1") ∧
    (bestOf fallbackNotes).score ≤ 0 ∧
    (1 : ℚ) / max (52325/100 : ℚ) 80 < 1 / max (27718/100 : ℚ) 80 := by
  refine ⟨by with_unfolding_all decide, by with_unfolding_all decide,
    by with_unfolding_all decide, by with_unfolding_all decide⟩

/-- The note-name table of `findClosestNote`.  Note that it starts at A (the
code's comment says "A is at index 0"), while the index computed below is the
C-based pitch-class offset `(halfSteps + 57) mod 12`. -/
def noteNamesA : List String :=
  ["A", "A#/Bb", "B", "C", "C#/Db", "D", "D#/Eb", "E", "F", "F#/Gb", "G", "G#/Ab"]

/-- `Math.round(12 * Math.log2(frequency / a4))` with `a4 = 440`: the number of
equal-tempered half steps from A4, rounded half-up (Lean's `round x = ⌊x + 1/2⌋`
is exactly `Math.round`). -/
noncomputable def roundedHalfStepsOf (frequency : ℚ) : ℤ :=
  round (12 * Real.logb 2 ((frequency : ℝ) / 440))

/-- `ChordDetector.findClosestNote`: the sentinel for non-positive input,
otherwise the rounded half-step count from A4 determines the retuned frequency
`440 * (2^(1/12))^n`, the octave `⌊(n + 57) / 12⌋`, and the name table index
`((n + 57) % 12 + 12) % 12`. -/
noncomputable def findClosestNote (frequency : ℚ) : ChordNote ℝ :=
  if frequency ≤ 0 then ⟨"Unknown", 0, 0⟩
  else
    let roundedHalfSteps := roundedHalfStepsOf frequency
    let closestFrequency : ℝ := 440 * ((2 : ℝ) ^ ((1 : ℝ) / 12)) ^ roundedHalfSteps
    let octave := Int.fdiv (roundedHalfSteps + 57) 12
    let noteIndex := (((roundedHalfSteps + 57) % 12 + 12) % 12).toNat
    ⟨noteNamesA.getD noteIndex "", octave, closestFrequency⟩

/-- Decidable characterization of the rounded half-step count: `n` is the
rounded value iff `(f/440)^24` lies in `[2^(2n-1), 2^(2n+1))`.  (A rational
24th power can never equal an odd power of 2, so the half-way case of the
rounding never occurs on rational inputs.) -/
lemma roundedHalfStepsOf_eq {f : ℚ} {n : ℤ} (hf : (0:ℝ) < (f:ℝ))
    (h1 : (2:ℝ) ^ (2*n - 1) ≤ ((f:ℝ)/440) ^ (24:ℕ))
    (h2 : ((f:ℝ)/440) ^ (24:ℕ) < (2:ℝ) ^ (2*n + 1)) :
    roundedHalfStepsOf f = n := by
  have hr : (0:ℝ) < (f:ℝ)/440 := by positivity
  have hb : (1:ℝ) < 2 := one_lt_two
  have e1 : ((2*n-1 : ℤ) : ℝ)/24 * ((24:ℕ):ℝ) = ((2*n-1 : ℤ) : ℝ) := by push_cast; ring
  have e2 : ((2*n+1 : ℤ) : ℝ)/24 * ((24:ℕ):ℝ) = ((2*n+1 : ℤ) : ℝ) := by push_cast; ring
  have pow1 : ((2:ℝ) ^ (((2*n-1 : ℤ) : ℝ)/24)) ^ (24:ℕ) = (2:ℝ) ^ (2*n-1 : ℤ) := by
    rw [← Real.rpow_natCast ((2:ℝ) ^ (((2*n-1 : ℤ) : ℝ)/24)) 24,
      ← Real.rpow_mul (by norm_num), e1, Real.rpow_intCast]
  have pow2 : ((2:ℝ) ^ (((2*n+1 : ℤ) : ℝ)/24)) ^ (24:ℕ) = (2:ℝ) ^ (2*n+1 : ℤ) := by
    rw [← Real.rpow_natCast ((2:ℝ) ^ (((2*n+1 : ℤ) : ℝ)/24)) 24,
      ← Real.rpow_mul (by norm_num), e2, Real.rpow_intCast]
  have h24a : ((2:ℝ) ^ (((2*n-1 : ℤ) : ℝ)/24)) ^ (24:ℕ) ≤ ((f:ℝ)/440) ^ (24:ℕ) := by
    rw [pow1]; exact h1
  have h24b : ((f:ℝ)/440) ^ (24:ℕ) < ((2:ℝ) ^ (((2*n+1 : ℤ) : ℝ)/24)) ^ (24:ℕ) := by
    rw [pow2]; exact h2
  have key1 : (2:ℝ) ^ (((2*n-1 : ℤ) : ℝ)/24) ≤ (f:ℝ)/440 :=
    le_of_pow_le_pow_left₀ (by norm_num) hr.le h24a
  have key2 : (f:ℝ)/440 < (2:ℝ) ^ (((2*n+1 : ℤ) : ℝ)/24) :=
    lt_of_pow_lt_pow_left₀ 24 (Real.rpow_pos_of_pos (by norm_num) _).le h24b
  have L1 : ((2*n-1 : ℤ) : ℝ)/24 ≤ Real.logb 2 ((f:ℝ)/440) :=
    (Real.le_logb_iff_rpow_le hb hr).mpr key1
  have L2 : Real.logb 2 ((f:ℝ)/440) < ((2*n+1 : ℤ) : ℝ)/24 :=
    (Real.logb_lt_iff_lt_rpow hb hr).mpr key2
  unfold roundedHalfStepsOf
  rw [round_eq, Int.floor_eq_iff]
  constructor
  · push_cast at L1 ⊢; linarith
  · push_cast at L2 ⊢; linarith

/-- C1 at the failing input 440 Hz: `findClosestNote 440` returns the name
"F#/Gb" (with the correct octave 4 and the correct retuned frequency 440):
the C-based index `(0 + 57) % 12 = 9` is applied to the A-based name table, so
every pitch-class name comes out shifted; the spec (and the code's own comment
"A is at index 0") expects "A" here. -/
theorem c1_note_name_shifted_at_440 :
    findClosestNote 440 = ⟨"F#/Gb", 4, 440⟩ := by
  have hn : roundedHalfStepsOf 440 = 0 := by
    apply roundedHalfStepsOf_eq (by norm_num)
    · push_cast; norm_num
    · push_cast; norm_num
  unfold findClosestNote
  rw [if_neg (by norm_num)]
  simp only [hn, zpow_zero, mul_one, ChordNote.mk.injEq]
  exact ⟨by decide, by decide, trivial⟩

/-- The guarded cases of `findClosestNote` on finite inputs: the sentinel
`{name := "Unknown", octave := 0, frequency := 0}` for non-positive frequency,
and a normal result (a table name, a positive retuned frequency) for positive
frequency. -/
lemma findClosestNote_cases (f : ℚ) :
    (f ≤ 0 → findClosestNote f = ⟨"Unknown", 0, 0⟩) ∧
    (0 < f → (findClosestNote f).name ∈ noteNamesA ∧ 0 < (findClosestNote f).frequency) := by
  constructor
  · intro h; unfold findClosestNote; rw [if_pos h]
  · intro h
    unfold findClosestNote
    rw [if_neg (not_le.mpr h)]
    constructor
    · have h0 : 0 ≤ ((roundedHalfStepsOf f + 57) % 12 + 12) % 12 :=
        Int.emod_nonneg _ (by norm_num)
      have h12 : ((roundedHalfStepsOf f + 57) % 12 + 12) % 12 < 12 :=
        Int.emod_lt_of_pos _ (by norm_num)
      have hlt : (((roundedHalfStepsOf f + 57) % 12 + 12) % 12).toNat < noteNamesA.length := by
        simp only [noteNamesA, List.length]
        omega
      show noteNamesA.getD (((roundedHalfStepsOf f + 57) % 12 + 12) % 12).toNat "" ∈ noteNamesA
      rw [List.getD_eq_getElem _ _ hlt]
      exact List.getElem_mem hlt
    · have h2 : (0:ℝ) < (2:ℝ) ^ ((1:ℝ)/12) := Real.rpow_pos_of_pos (by norm_num) _
      show (0:ℝ) < 440 * ((2:ℝ) ^ ((1:ℝ)/12)) ^ roundedHalfStepsOf f
      exact mul_pos (by norm_num) (zpow_pos h2 _)

/-- The result record of `findClosestNote` with the source's non-value fields
tracked: `none` models `undefined` in `name` (the table lookup at a NaN index)
and NaN in `octave` and `frequency`. -/
structure ChordNoteF where
  name : Option String
  octave : Option ℤ
  frequency : Option ℝ

/-- NaN-faithful `findClosestNote`: the argument is `none` when the input
frequency is NaN (as produced by the peak finder's degenerate parabolic
interpolation).  `NaN <= 0` is false in the source, so the sentinel guard is
skipped: every derived arithmetic value is NaN and the name lookup at a NaN
index yields `undefined`.  On a finite input it behaves exactly as
`findClosestNote`. -/
noncomputable def findClosestNoteF : Option ℚ → ChordNoteF
  | none => ⟨none, none, none⟩
  | some f =>
    ⟨some (findClosestNote f).name, some (findClosestNote f).octave,
      some (findClosestNote f).frequency⟩

/-- C8 counterexample: on a non-finite (NaN) input `findClosestNote` does NOT
return the sentinel: the guard `frequency <= 0` is false for NaN, so the
computation proceeds and the result carries an undefined name and NaN octave
and frequency instead of `{"Unknown", 0, 0}`. -/
theorem c8_counterexample :
    findClosestNoteF none = ⟨none, none, none⟩ ∧
    (findClosestNoteF none).name ≠ some "Unknown" ∧
    (findClosestNoteF none).octave ≠ some 0 := by
  refine ⟨rfl, ?_, ?_⟩ <;> simp [findClosestNoteF]

/-- C8 (amended): for every frequency `<= 0` the result is exactly the sentinel
`{"Unknown", 0, 0}`, and for every positive frequency the result is normal (the
name is one of the twelve table entries and the retuned frequency is positive);
but a non-finite (NaN) frequency slips past the `<= 0` guard and produces an
undefined name and NaN octave and frequency — not the sentinel (though still
without throwing). -/
theorem c8_sentinel_for_nonpositive (f : Option ℚ) :
    (∀ q : ℚ, f = some q → q ≤ 0 →
      findClosestNoteF f = ⟨some "Unknown", some 0, some 0⟩) ∧
    (∀ q : ℚ, f = some q → 0 < q →
      (∃ nm, (findClosestNoteF f).name = some nm ∧ nm ∈ noteNamesA) ∧
      (∃ r, (findClosestNoteF f).frequency = some r ∧ 0 < r)) ∧
    (f = none → findClosestNoteF f = ⟨none, none, none⟩) := by
  refine ⟨?_, ?_, ?_⟩
  · rintro q rfl hq
    show (⟨some (findClosestNote q).name, some (findClosestNote q).octave,
      some (findClosestNote q).frequency⟩ : ChordNoteF) = _
    rw [(findClosestNote_cases q).1 hq]
  · rintro q rfl hq
    obtain ⟨hmem, hpos⟩ := (findClosestNote_cases q).2 hq
    exact ⟨⟨(findClosestNote q).name, rfl, hmem⟩,
      ⟨(findClosestNote q).frequency, rfl, hpos⟩⟩
  · rintro rfl
    rfl

theorem c8_sentinel_for_nonpositive_witness :
    findClosestNoteF (some (-5)) = ⟨some "Unknown", some 0, some 0⟩ ∧
    (∃ nm, (findClosestNoteF (some 440)).name = some nm ∧ nm ∈ noteNamesA) ∧
    findClosestNoteF none = ⟨none, none, none⟩ :=
  ⟨(c8_sentinel_for_nonpositive (some (-5))).1 (-5) rfl (by norm_num),
    ((c8_sentinel_for_nonpositive (some 440)).2.1 440 rfl (by norm_num)).1,
    (c8_sentinel_for_nonpositive none).2.2 rfl⟩

/-- Total indexing of a spectrum by a (possibly negative) bin index; a read
outside the array is 0 (`smoothedData` is a zero-initialised `Uint8Array`, and
no out-of-range raw read influences the statements proved below). -/
def getI (data : List ℕ) (i : ℤ) : ℕ :=
  if 0 ≤ i then data.getD i.toNat 0 else 0

/-- The smoothed spectrum of `findFrequencyPeaks`: for `3 ≤ i < length - 3` the
floor of the average of the seven raw bins `i-3 .. i+3`, and 0 (the initial
array value) outside that range. -/
def smoothedAt (data : List ℕ) (i : ℤ) : ℕ :=
  if 3 ≤ i ∧ i < (data.length : ℤ) - 3 then
    (getI data (i-3) + getI data (i-2) + getI data (i-1) + getI data i +
      getI data (i+1) + getI data (i+2) + getI data (i+3)) / 7
  else 0

/-- `smoothedData[i] > getThreshold(i)` with
`getThreshold(bin) = 15 + 30 * Math.exp(-bin / (minBin * 2))`.  Idealized at
`minBin = 0` (bin width above 80 Hz): the Lean convention gives exponent 0 and
threshold 45 where the source gets threshold 15 at positive bins (exponent
`-Infinity`) and an always-false NaN comparison at bin 0, so acceptance can
differ there for smoothed values in `(15, 45]`; every statement below uses only
that an accepted candidate's smoothed value strictly exceeds 15, which holds
under both conventions, and every concrete spectrum in this file has
`minBin = 4`. -/
def thrOK (s : ℕ) (i minBin : ℤ) : Prop :=
  15 + 30 * Real.exp (-(i:ℝ) / ((minBin:ℝ) * 2)) < (s:ℝ)

/-- The candidate-peak test of the first pass: smoothed value above the
threshold and a strict local maximum of the smoothed spectrum. -/
def isCandidate (data : List ℕ) (minBin i : ℤ) : Prop :=
  thrOK (smoothedAt data i) i minBin ∧
  smoothedAt data (i-1) < smoothedAt data i ∧
  smoothedAt data (i+1) < smoothedAt data i

/-- The refinement loop at candidate bin `i`: scan `j = i-1, i, i+1` starting
from `(i, smoothedData[i])`, moving to `(j, frequencyData[j])` whenever the raw
value strictly exceeds the current peak value; returns `(peakBin, peakValue)`. -/
def refineBin (data : List ℕ) (s : ℕ) (i : ℤ) : ℤ × ℕ :=
  let p0 : ℤ × ℕ := (i, s)
  let p1 := if p0.2 < getI data (i-1) then (i-1, getI data (i-1)) else p0
  let p2 := if p1.2 < getI data i then (i, getI data i) else p1
  if p2.2 < getI data (i+1) then (i+1, getI data (i+1)) else p2

/-- The parabolic-interpolation offset at a peak bin, clamped to `[-1/2, 1/2]`:
`0.5 * (α - γ) / (α - 2β + γ)` on the three raw magnitudes centered on the bin.
Idealized: a zero denominator yields offset 0 under the Lean convention; the
source's behaviour there (`±Infinity` clamped to `±1/2`, or NaN when also
`α = γ`) is modelled faithfully by `peakOffsetF` below, and the two agree
whenever the denominator is nonzero — in particular at every candidate of the
concrete spectra in this file other than `spectrumNaNPeak`. -/
def peakOffset (data : List ℕ) (pb : ℤ) : ℚ :=
  let alpha : ℚ := getI data (pb-1)
  let beta : ℚ := getI data pb
  let gamma : ℚ := getI data (pb+1)
  max (-(1/2)) (min (1/2) ((1/2) * (alpha - gamma) / (alpha - 2*beta + gamma)))

/-- A first-pass peak: refined frequency and recorded magnitude. -/
structure Peak where
  frequency : ℚ
  magnitude : ℕ
  deriving DecidableEq

/-- The refined peak produced from candidate bin `i`:
frequency `(peakBin + peakOffset) * binSize`, magnitude `peakValue`. -/
def mkPeak (data : List ℕ) (binSize : ℚ) (i : ℤ) : Peak :=
  let r := refineBin data (smoothedAt data i) i
  ⟨((r.1 : ℚ) + peakOffset data r.1) * binSize, r.2⟩

/-- The deduplication test: `|12 * Math.log2(f / g)| < 1`, the two frequencies
are closer than one semitone. -/
def semitoneClose (f g : ℚ) : Prop :=
  |12 * Real.logb 2 ((f:ℝ) / (g:ℝ))| < 1

open scoped Classical in
/-- One deduplication step of the first pass: walk the accepted list in order;
at the first accepted peak closer than one semitone to the candidate, replace
it by the candidate iff the candidate is strictly stronger, and stop; if no
accepted peak is that close, append the candidate. -/
noncomputable def dedupInsert (c : Peak) : List Peak → List Peak
  | [] => [c]
  | p :: rest =>
    if semitoneClose p.frequency c.frequency then
      if p.magnitude < c.magnitude then c :: rest else p :: rest
    else p :: dedupInsert c rest

open scoped Classical in
/-- The first pass of `findFrequencyPeaks`: scan the candidate bins in
ascending order, accumulating accepted peaks through `dedupInsert`. -/
noncomputable def scanBins (data : List ℕ) (binSize : ℚ) (minBin : ℤ) :
    List ℤ → List Peak → List Peak
  | [], acc => acc
  | i :: rest, acc =>
    scanBins data binSize minBin rest
      (if isCandidate data minBin i then dedupInsert (mkPeak data binSize i) acc else acc)

/-- The ascending bin list scanned by the first pass:
`minBin ≤ i < min (length - 1) maxBin`. -/
def binRange (len : ℕ) (minBin maxBin : ℤ) : List ℤ :=
  (List.range (min ((len:ℤ) - 1) maxBin - minBin).toNat).map (fun (k : ℕ) => minBin + (k:ℤ))

/-- The accepted peaks of the first pass, before sorting and harmonic
filtering, with `minBin = ⌊80 / binSize⌋` and `maxBin = ⌊1200 / binSize⌋`. -/
noncomputable def candidatePeaks (data : List ℕ) (sampleRate fftSize : ℚ) : List Peak :=
  let binSize := sampleRate / fftSize
  let minBin := ⌊(80:ℚ) / binSize⌋
  let maxBin := ⌊(1200:ℚ) / binSize⌋
  scanBins data binSize minBin (binRange data.length minBin maxBin) []

/-- `peaks.sort((a, b) => b.magnitude - a.magnitude)`: stable sort by
descending magnitude. -/
def sortPeaks (l : List Peak) : List Peak :=
  List.insertionSort (fun a b => b.magnitude ≤ a.magnitude) l

/-- The harmonic test of the second pass: the peak's frequency is within 3% of
`h` times some already-kept (stronger) peak's frequency, for `h = 2, 3, 4`. -/
def isHarmonic (p : Peak) (kept : List Peak) : Bool :=
  kept.any fun q =>
    [2, 3, 4].any fun h => decide (|p.frequency / (q.frequency * (h:ℚ)) - 1| < 3/100)

/-- The harmonic-suppression pass: walk the magnitude-sorted peaks, dropping
harmonics of already-kept peaks and stopping once `peakCount` peaks are kept. -/
def filterHarmonics (peakCount : ℕ) : List Peak → List Peak → List Peak
  | [], kept => kept
  | p :: rest, kept =>
    if isHarmonic p kept then filterHarmonics peakCount rest kept
    else
      if peakCount ≤ (kept ++ [p]).length then kept ++ [p]
      else filterHarmonics peakCount rest (kept ++ [p])

/-- `ChordDetector.findFrequencyPeaks`: first-pass peaks, sorted by descending
magnitude, harmonics suppressed, truncated to `peakCount`, frequencies only. -/
noncomputable def findFrequencyPeaks (data : List ℕ) (sampleRate fftSize : ℚ)
    (peakCount : ℕ := 6) : List ℚ :=
  (filterHarmonics peakCount (sortPeaks (candidatePeaks data sampleRate fftSize)) []).map
    (·.frequency)

/-- `ChordDetector.isDataMostlySilent`: mean magnitude strictly below the
silence threshold 10.  Idealized on the empty spectrum, where the Lean
convention `0 / 0 = 0` counts it as silent while the source's `NaN < 10` is
false; either way `detectChord` returns the empty chord there (silent fast
path here, empty peak list in the source). -/
def isDataMostlySilent (data : List ℕ) : Bool :=
  decide ((data.sum : ℚ) / (data.length : ℚ) < 10)

/-- The detection result: chord name, formula, detected notes, peak
frequencies. -/
structure Chord where
  name : String
  formula : String
  notes : List (ChordNote ℝ)
  frequencies : List ℚ

/-- `ChordDetector.detectChord`: empty result on a mostly-silent spectrum;
with fewer than two peaks, the first detected note's name (or `""`) with empty
formula; otherwise the identified chord, always together with the detected
notes and the peak frequencies. -/
noncomputable def detectChord (data : List ℕ) (sampleRate fftSize : ℚ) : Chord :=
  if isDataMostlySilent data then ⟨"", "", [], []⟩
  else
    let peaks := findFrequencyPeaks data sampleRate fftSize 6
    if peaks.length < 2 then
      let notes := peaks.map findClosestNote
      ⟨(match notes with | [] => "" | n :: _ => n.name), "", notes, peaks⟩
    else
      let notes := peaks.map findClosestNote
      let chord := identifyChord notes
      ⟨chord.1, chord.2, notes, peaks⟩

/-- C6: for every spectrum, sample rate and FFT size, `detectChord` returns
(totally, by construction) a result whose `notes` and `frequencies` have equal
length and whose `notes[i]` is `findClosestNote frequencies[i]` for every
index. -/
theorem c6_structural_validity (data : List ℕ) (sampleRate fftSize : ℚ) :
    (detectChord data sampleRate fftSize).notes.length =
      (detectChord data sampleRate fftSize).frequencies.length ∧
    (detectChord data sampleRate fftSize).notes =
      (detectChord data sampleRate fftSize).frequencies.map findClosestNote := by
  have h2 : (detectChord data sampleRate fftSize).notes =
      (detectChord data sampleRate fftSize).frequencies.map findClosestNote := by
    unfold detectChord
    split
    · rfl
    · dsimp only
      split <;> rfl
  exact ⟨by rw [h2, List.length_map], h2⟩

lemma getI_zero {data : List ℕ} (h : ∀ x ∈ data, x = 0) (i : ℤ) : getI data i = 0 := by
  unfold getI
  split
  · rcases Nat.lt_or_ge i.toNat data.length with hl | hl
    · rw [List.getD_eq_getElem _ _ hl]; exact h _ (List.getElem_mem hl)
    · exact List.getD_eq_default _ _ hl
  · rfl

lemma smoothedAt_zero {data : List ℕ} (h : ∀ x ∈ data, x = 0) (i : ℤ) :
    smoothedAt data i = 0 := by
  unfold smoothedAt
  split
  · simp [getI_zero h]
  · rfl

lemma not_isCandidate_zero {data : List ℕ} (h : ∀ x ∈ data, x = 0) (m i : ℤ) :
    ¬ isCandidate data m i := by
  intro hc
  have h1 := hc.1
  rw [smoothedAt_zero h] at h1
  unfold thrOK at h1
  have hexp := Real.exp_pos (-(i:ℝ) / ((m:ℝ) * 2))
  norm_num at h1
  linarith

lemma scanBins_of_no_candidate {data : List ℕ} {m : ℤ} (b : ℚ)
    (h : ∀ i, ¬ isCandidate data m i) :
    ∀ (bins : List ℤ) (acc : List Peak), scanBins data b m bins acc = acc
  | [], _ => rfl
  | i :: rest, acc => by
    unfold scanBins
    rw [if_neg (h i)]
    exact scanBins_of_no_candidate b h rest acc

/-- On an all-zero spectrum the smoothed spectrum is identically zero, so no
bin passes the (strictly positive) candidate threshold and the peak finder
returns no peaks, whatever the sample rate and FFT size. -/
lemma findFrequencyPeaks_zero {data : List ℕ} (h : ∀ x ∈ data, x = 0)
    (sr fft : ℚ) (k : ℕ) : findFrequencyPeaks data sr fft k = [] := by
  unfold findFrequencyPeaks candidatePeaks
  rw [scanBins_of_no_candidate _ (fun i => not_isCandidate_zero h _ i)]
  rfl

/-- C7: whenever the mean magnitude is below the silence threshold,
`detectChord` returns the empty chord without invoking the peak finder; and on
an all-zero spectrum the peak finder itself returns the empty sequence (and
`detectChord` the empty chord). -/
theorem c7_silence_fast_path (data : List ℕ) (sampleRate fftSize : ℚ) :
    (isDataMostlySilent data = true →
      detectChord data sampleRate fftSize = ⟨"", "", [], []⟩) ∧
    ((∀ x ∈ data, x = 0) →
      findFrequencyPeaks data sampleRate fftSize 6 = [] ∧
      detectChord data sampleRate fftSize = ⟨"", "", [], []⟩) := by
  have hdet : isDataMostlySilent data = true →
      detectChord data sampleRate fftSize = ⟨"", "", [], []⟩ := by
    intro h; unfold detectChord; rw [if_pos h]
  refine ⟨hdet, fun hz => ⟨findFrequencyPeaks_zero hz _ _ _, ?_⟩⟩
  by_cases hs : isDataMostlySilent data
  · exact hdet hs
  · unfold detectChord
    rw [if_neg (by simpa using hs)]
    simp [findFrequencyPeaks_zero hz]

theorem c7_silence_fast_path_witness :
    isDataMostlySilent [0, 0, 0, 0] = true ∧
    detectChord [0, 0, 0, 0] 44100 2048 = ⟨"", "", [], []⟩ ∧
    findFrequencyPeaks [0, 0, 0, 0] 44100 2048 6 = [] := by
  have h : isDataMostlySilent [0, 0, 0, 0] = true := by with_unfolding_all decide
  exact ⟨h, (c7_silence_fast_path [0, 0, 0, 0] 44100 2048).1 h,
    ((c7_silence_fast_path [0, 0, 0, 0] 44100 2048).2 (by decide)).1⟩

lemma scanBins_cons_neg {data : List ℕ} {m i : ℤ} (b : ℚ) (rest : List ℤ)
    (acc : List Peak) (h : ¬ isCandidate data m i) :
    scanBins data b m (i :: rest) acc = scanBins data b m rest acc := by
  simp only [scanBins, if_neg h]

lemma scanBins_cons_pos {data : List ℕ} {m i : ℤ} (b : ℚ) (rest : List ℤ)
    (acc : List Peak) (h : isCandidate data m i) :
    scanBins data b m (i :: rest) acc =
      scanBins data b m rest (dedupInsert (mkPeak data b i) acc) := by
  simp only [scanBins, if_pos h]

lemma not_isCandidate_of_left {data : List ℕ} {m i : ℤ}
    (h : ¬ smoothedAt data (i-1) < smoothedAt data i) : ¬ isCandidate data m i :=
  fun hc => h hc.2.1

lemma not_isCandidate_of_right {data : List ℕ} {m i : ℤ}
    (h : ¬ smoothedAt data (i+1) < smoothedAt data i) : ¬ isCandidate data m i :=
  fun hc => h hc.2.2

/-- For nonnegative bin and `minBin`, the threshold `15 + 30 * exp(-i/(2 minBin))`
is at most 45, so any smoothed value of at least 46 passes it. -/
lemma thrOK_of_big {s : ℕ} {i m : ℤ} (hi : 0 ≤ i) (hm : 0 ≤ m) (hs : 46 ≤ s) :
    thrOK s i m := by
  unfold thrOK
  have hi' : (0:ℝ) ≤ (i:ℝ) := by exact_mod_cast hi
  have hm' : (0:ℝ) ≤ (m:ℝ) := by exact_mod_cast hm
  have hx : -(i:ℝ) / ((m:ℝ) * 2) ≤ 0 := by
    apply div_nonpos_of_nonpos_of_nonneg
    · linarith
    · linarith
  have he : Real.exp (-(i:ℝ) / ((m:ℝ) * 2)) ≤ 1 := by
    rw [← Real.exp_zero]; exact Real.exp_le_exp.mpr hx
  have hs' : (46:ℝ) ≤ (s:ℕ) := by exact_mod_cast hs
  linarith

/-- A 16-bin spectrum with a single smoothed local maximum at bin 8
(raw triangle 60-120-200-255-200-120-60 over bins 5–11). -/
def spectrumOnePeak : List ℕ := [0, 0, 0, 0, 0, 60, 120, 200, 255, 200, 120, 60, 0, 0, 0, 0]

/-- With sample rate 320 and FFT size 16 (bin width 20 Hz), the first pass on
`spectrumOnePeak` accepts exactly one peak: 160 Hz with raw magnitude 255. -/
lemma candidatePeaks_spectrumOnePeak :
    candidatePeaks spectrumOnePeak 320 16 = [⟨160, 255⟩] := by
  have hb : (320:ℚ)/16 = 20 := by norm_num
  simp only [candidatePeaks]
  rw [hb, show ⌊(80:ℚ)/20⌋ = 4 by norm_num, show ⌊(1200:ℚ)/20⌋ = 60 by norm_num,
    show binRange spectrumOnePeak.length 4 60 = [4, 5, 6, 7, 8, 9, 10, 11, 12, 13, 14]
      from by with_unfolding_all decide]
  rw [scanBins_cons_neg _ _ _ (not_isCandidate_of_right (by with_unfolding_all decide))]
  rw [scanBins_cons_neg _ _ _ (not_isCandidate_of_right (by with_unfolding_all decide))]
  rw [scanBins_cons_neg _ _ _ (not_isCandidate_of_right (by with_unfolding_all decide))]
  rw [scanBins_cons_neg _ _ _ (not_isCandidate_of_right (by with_unfolding_all decide))]
  rw [scanBins_cons_pos _ _ _
    ⟨by rw [show smoothedAt spectrumOnePeak 8 = 145 from by with_unfolding_all decide]
        exact thrOK_of_big (by norm_num) (by norm_num) (by norm_num),
     by with_unfolding_all decide, by with_unfolding_all decide⟩]
  rw [scanBins_cons_neg _ _ _ (not_isCandidate_of_left (by with_unfolding_all decide))]
  rw [scanBins_cons_neg _ _ _ (not_isCandidate_of_left (by with_unfolding_all decide))]
  rw [scanBins_cons_neg _ _ _ (not_isCandidate_of_left (by with_unfolding_all decide))]
  rw [scanBins_cons_neg _ _ _ (not_isCandidate_of_left (by with_unfolding_all decide))]
  rw [scanBins_cons_neg _ _ _ (not_isCandidate_of_left (by with_unfolding_all decide))]
  rw [scanBins_cons_neg _ _ _ (not_isCandidate_of_left (by with_unfolding_all decide))]
  rw [show mkPeak spectrumOnePeak 20 8 = ⟨160, 255⟩ from by with_unfolding_all decide]
  rfl

lemma findFrequencyPeaks_spectrumOnePeak :
    findFrequencyPeaks spectrumOnePeak 320 16 6 = [160] := by
  unfold findFrequencyPeaks
  rw [candidatePeaks_spectrumOnePeak]
  with_unfolding_all decide

/-- C10: whenever the spectrum is not mostly silent and exactly one peak is
found, `detectChord` returns that peak's note name verbatim (possibly a dual
enharmonic spelling) with the *empty* formula, the note list and the frequency
list, without invoking the chord matcher (whose single-note contract would be
the first spelling with formula "1"). -/
theorem c10_single_peak_path (data : List ℕ) (sampleRate fftSize : ℚ) (f : ℚ)
    (h1 : isDataMostlySilent data = false)
    (h2 : findFrequencyPeaks data sampleRate fftSize 6 = [f]) :
    detectChord data sampleRate fftSize =
      ⟨(findClosestNote f).name, "", [findClosestNote f], [f]⟩ := by
  unfold detectChord
  rw [if_neg (by simp [h1])]
  dsimp only
  rw [h2]
  rw [if_pos (by norm_num)]
  rfl

theorem c10_single_peak_path_witness :
    isDataMostlySilent spectrumOnePeak = false ∧
    findFrequencyPeaks spectrumOnePeak 320 16 6 = [160] ∧
    detectChord spectrumOnePeak 320 16 =
      ⟨(findClosestNote 160).name, "", [findClosestNote 160], [160]⟩ := by
  have hs : isDataMostlySilent spectrumOnePeak = false := by with_unfolding_all decide
  exact ⟨hs, findFrequencyPeaks_spectrumOnePeak,
    c10_single_peak_path _ _ _ _ hs findFrequencyPeaks_spectrumOnePeak⟩

/-- C9 (amended): the magnitude recorded for a candidate peak is the maximum of
the smoothed value at the candidate bin and the three raw values at the bins
centered there — i.e. the raw value at the refined bin whenever some raw
neighbor exceeds the smoothed value, but the smoothed value itself when the
smoothed value exceeds all three raw values. -/
theorem c9_recorded_magnitude_is_max (data : List ℕ) (s : ℕ) (i : ℤ) :
    (refineBin data s i).2 =
      max (max (max s (getI data (i-1))) (getI data i)) (getI data (i+1)) := by
  unfold refineBin
  dsimp only
  split_ifs <;> omega

/-- A 16-bin spectrum whose smoothed local maximum at bin 8 (value 148) exceeds
all three raw values there (0, 20, 0): the strong raw bins 5, 6, 10, 11 lie
inside the averaging window but outside the three-bin refinement window. -/
def spectrumSmoothedPeak : List ℕ :=
  [0, 0, 0, 0, 0, 255, 255, 0, 20, 0, 255, 255, 0, 0, 0, 0]

/-- C9 counterexample: on `spectrumSmoothedPeak` (sample rate 320, FFT size 16)
the single accepted peak carries magnitude 148 — the smoothed value at bin 8 —
which differs from the raw value 20 at its refined bin 8 and indeed occurs
nowhere in the raw spectrum. -/
theorem c9_counterexample :
    candidatePeaks spectrumSmoothedPeak 320 16 = [⟨160, 148⟩] ∧
    refineBin spectrumSmoothedPeak (smoothedAt spectrumSmoothedPeak 8) 8 = (8, 148) ∧
    getI spectrumSmoothedPeak 8 = 20 ∧
    (148 : ℕ) ∉ spectrumSmoothedPeak := by
  refine ⟨?_, by with_unfolding_all decide, by with_unfolding_all decide,
    by with_unfolding_all decide⟩
  have hb : (320:ℚ)/16 = 20 := by norm_num
  simp only [candidatePeaks]
  rw [hb, show ⌊(80:ℚ)/20⌋ = 4 by norm_num, show ⌊(1200:ℚ)/20⌋ = 60 by norm_num,
    show binRange spectrumSmoothedPeak.length 4 60 = [4, 5, 6, 7, 8, 9, 10, 11, 12, 13, 14]
      from by with_unfolding_all decide]
  rw [scanBins_cons_neg _ _ _ (not_isCandidate_of_left (by with_unfolding_all decide))]
  rw [scanBins_cons_neg _ _ _ (not_isCandidate_of_right (by with_unfolding_all decide))]
  rw [scanBins_cons_neg _ _ _ (not_isCandidate_of_left (by with_unfolding_all decide))]
  rw [scanBins_cons_neg _ _ _ (not_isCandidate_of_right (by with_unfolding_all decide))]
  rw [scanBins_cons_pos _ _ _
    ⟨by rw [show smoothedAt spectrumSmoothedPeak 8 = 148 from by with_unfolding_all decide]
        exact thrOK_of_big (by norm_num) (by norm_num) (by norm_num),
     by with_unfolding_all decide, by with_unfolding_all decide⟩]
  rw [scanBins_cons_neg _ _ _ (not_isCandidate_of_left (by with_unfolding_all decide))]
  rw [scanBins_cons_neg _ _ _ (not_isCandidate_of_left (by with_unfolding_all decide))]
  rw [scanBins_cons_neg _ _ _ (not_isCandidate_of_left (by with_unfolding_all decide))]
  rw [scanBins_cons_neg _ _ _ (not_isCandidate_of_left (by with_unfolding_all decide))]
  rw [scanBins_cons_neg _ _ _ (not_isCandidate_of_left (by with_unfolding_all decide))]
  rw [scanBins_cons_neg _ _ _ (not_isCandidate_of_left (by with_unfolding_all decide))]
  rw [show mkPeak spectrumSmoothedPeak 20 8 = ⟨160, 148⟩ from by with_unfolding_all decide]
  rfl

/-- The equal-tempered semitone ratio `2^(1/12)`. -/
noncomputable def semitoneRatio : ℝ := (2:ℝ) ^ ((1:ℝ)/12)

lemma semitoneRatio_pos : 0 < semitoneRatio :=
  Real.rpow_pos_of_pos (by norm_num) _

lemma one_lt_semitoneRatio : 1 < semitoneRatio := by
  unfold semitoneRatio
  rw [show (1:ℝ) = (2:ℝ) ^ (0:ℝ) from (Real.rpow_zero 2).symm]
  exact Real.rpow_lt_rpow_left_iff one_lt_two |>.mpr (by norm_num)

/-- The pairwise-separation relation of the peak-finder invariant:
the two frequencies are at least one semitone apart. -/
def semitoneApart (f g : ℚ) : Prop :=
  1 ≤ |12 * Real.logb 2 ((f:ℝ) / (g:ℝ))|

lemma semitoneApart_symm {f g : ℚ} (h : semitoneApart f g) : semitoneApart g f := by
  unfold semitoneApart at h ⊢
  rwa [show (g:ℝ) / (f:ℝ) = ((f:ℝ) / (g:ℝ))⁻¹ from (inv_div _ _).symm, Real.logb_inv,
    mul_neg, abs_neg]

/-- Characterization of the deduplication test on positive frequencies:
closer than one semitone iff each frequency is below the other times
`2^(1/12)`. -/
lemma semitoneClose_iff {f g : ℚ} (hf : 0 < f) (hg : 0 < g) :
    semitoneClose f g ↔
      (g:ℝ) < (f:ℝ) * semitoneRatio ∧ (f:ℝ) < (g:ℝ) * semitoneRatio := by
  have hf' : (0:ℝ) < (f:ℝ) := by exact_mod_cast hf
  have hg' : (0:ℝ) < (g:ℝ) := by exact_mod_cast hg
  have hdiv : (0:ℝ) < (f:ℝ) / (g:ℝ) := by positivity
  have hr : (0:ℝ) < semitoneRatio := semitoneRatio_pos
  unfold semitoneClose
  rw [abs_lt]
  constructor
  · rintro ⟨h1, h2⟩
    constructor
    · have hL : (-(1/12) : ℝ) < Real.logb 2 ((f:ℝ)/(g:ℝ)) := by linarith
      have := (Real.lt_logb_iff_rpow_lt one_lt_two hdiv).mp hL
      rw [show ((-(1/12)) : ℝ) = -((1:ℝ)/12) by norm_num, Real.rpow_neg (by norm_num)] at this
      have h3 : (g:ℝ) * semitoneRatio⁻¹ < (f:ℝ) := by
        rw [mul_comm]
        calc semitoneRatio⁻¹ * (g:ℝ) < ((f:ℝ)/(g:ℝ)) * (g:ℝ) := by
              exact mul_lt_mul_of_pos_right this hg'
          _ = (f:ℝ) := div_mul_cancel₀ _ (ne_of_gt hg')
      calc (g:ℝ) = (g:ℝ) * semitoneRatio⁻¹ * semitoneRatio := by
            field_simp
        _ < (f:ℝ) * semitoneRatio := mul_lt_mul_of_pos_right h3 hr
    · have hL : Real.logb 2 ((f:ℝ)/(g:ℝ)) < (1:ℝ)/12 := by linarith
      have := (Real.logb_lt_iff_lt_rpow one_lt_two hdiv).mp hL
      calc (f:ℝ) = ((f:ℝ)/(g:ℝ)) * (g:ℝ) := (div_mul_cancel₀ _ (ne_of_gt hg')).symm
        _ < semitoneRatio * (g:ℝ) := mul_lt_mul_of_pos_right this hg'
        _ = (g:ℝ) * semitoneRatio := mul_comm _ _
  · rintro ⟨h1, h2⟩
    constructor
    · have h3 : semitoneRatio⁻¹ < (f:ℝ)/(g:ℝ) := by
        rw [lt_div_iff₀ hg', mul_comm]
        calc (g:ℝ) * semitoneRatio⁻¹ < ((f:ℝ) * semitoneRatio) * semitoneRatio⁻¹ :=
              mul_lt_mul_of_pos_right h1 (by positivity)
          _ = (f:ℝ) := by field_simp
      have h4 : (2:ℝ) ^ (-((1:ℝ)/12)) < (f:ℝ)/(g:ℝ) := by
        rw [Real.rpow_neg (by norm_num)]
        exact h3
      have h5 := (Real.lt_logb_iff_rpow_lt one_lt_two hdiv).mpr h4
      linarith
    · have h3 : (f:ℝ)/(g:ℝ) < semitoneRatio := by
        rw [div_lt_iff₀ hg', mul_comm]
        exact h2
      have := (Real.logb_lt_iff_lt_rpow one_lt_two hdiv).mpr h3
      linarith

/-- From a failed deduplication test between an earlier (lower) and the current
(higher) candidate frequency, the multiplicative separation follows. -/
lemma mulSep_of_not_close {f g : ℚ} (hf : 0 < f) (hg : 0 < g) (hle : f ≤ g)
    (h : ¬ semitoneClose f g) : (f:ℝ) * semitoneRatio ≤ (g:ℝ) := by
  rcases not_and_or.mp ((semitoneClose_iff hf hg).not.mp h) with h1 | h2
  · push_neg at h1
    -- f * r ≤ g directly
    exact h1
  · push_neg at h2
    -- g * r ≤ f together with f ≤ g forces g (r - 1) ≤ 0, impossible
    exfalso
    have hg' : (0:ℝ) < (g:ℝ) := by exact_mod_cast hg
    have hle' : (f:ℝ) ≤ (g:ℝ) := by exact_mod_cast hle
    nlinarith [one_lt_semitoneRatio]

lemma refineBin_fst_range (data : List ℕ) (s : ℕ) (i : ℤ) :
    i - 1 ≤ (refineBin data s i).1 ∧ (refineBin data s i).1 ≤ i + 1 := by
  unfold refineBin
  dsimp only
  split_ifs <;> omega

lemma candidate_smoothed_big {data : List ℕ} {m i : ℤ} (h : isCandidate data m i) :
    16 ≤ smoothedAt data i := by
  have h1 := h.1
  unfold thrOK at h1
  have hexp := Real.exp_pos (-(i:ℝ) / ((m:ℝ) * 2))
  by_contra hlt
  push_neg at hlt
  have : ((smoothedAt data i : ℕ) : ℝ) ≤ 15 := by exact_mod_cast Nat.lt_succ_iff.mp hlt
  linarith

lemma candidate_bin_ge_three {data : List ℕ} {m i : ℤ} (h : isCandidate data m i) :
    3 ≤ i := by
  by_contra hlt
  push_neg at hlt
  have h0 : smoothedAt data i = 0 := by
    unfold smoothedAt
    rw [if_neg (fun hc => absurd hc.1 (not_le.mpr hlt))]
  have := candidate_smoothed_big h
  omega

lemma candidates_not_adjacent {data : List ℕ} {m i : ℤ}
    (h1 : isCandidate data m i) (h2 : isCandidate data m (i+1)) : False := by
  have ha := h1.2.2
  have hb := h2.2.1
  rw [add_sub_cancel_right] at hb
  omega

lemma binRange_pairwise (len : ℕ) (minBin maxBin : ℤ) :
    (binRange len minBin maxBin).Pairwise (· < ·) := by
  unfold binRange
  rw [List.pairwise_map]
  exact (List.pairwise_lt_range _).imp (fun h => by
    exact add_lt_add_left (by exact_mod_cast h) minBin)

/-- For non-positive bin width (non-positive sample rate, or zero from a zero
FFT size under the division convention) the scanned bin range is empty. -/
lemma binRange_eq_nil_of_nonpos {len : ℕ} {b : ℚ} (hb : b ≤ 0) :
    binRange len ⌊(80:ℚ)/b⌋ ⌊(1200:ℚ)/b⌋ = [] := by
  unfold binRange
  have hdiv : (1200:ℚ)/b ≤ (80:ℚ)/b := by
    rcases lt_or_eq_of_le hb with hlt | heq
    · have h2 : (1120:ℚ)/b < 0 := div_neg_of_pos_of_neg (by norm_num) hlt
      have h1 : (1200:ℚ)/b - (80:ℚ)/b = 1120/b := by ring
      linarith
    · subst heq; simp
  have hfl : ⌊(1200:ℚ)/b⌋ ≤ ⌊(80:ℚ)/b⌋ := Int.floor_le_floor hdiv
  have hmin : min ((len:ℤ) - 1) ⌊(1200:ℚ)/b⌋ - ⌊(80:ℚ)/b⌋ ≤ 0 := by
    have := min_le_right ((len:ℤ) - 1) ⌊(1200:ℚ)/b⌋
    omega
  rw [Int.toNat_of_nonpos hmin]
  rfl

/-- Multiplicative separation of positive frequencies implies the logarithmic
one-semitone separation. -/
lemma semitoneApart_of_ratio {f g : ℚ} (hf : 0 < f) (hg : 0 < g)
    (h : (f:ℝ) * semitoneRatio ≤ (g:ℝ)) : semitoneApart f g := by
  have hf' : (0:ℝ) < (f:ℝ) := by exact_mod_cast hf
  have hg' : (0:ℝ) < (g:ℝ) := by exact_mod_cast hg
  have hdiv : (0:ℝ) < (g:ℝ)/(f:ℝ) := by positivity
  have hrle : semitoneRatio ≤ (g:ℝ)/(f:ℝ) := by
    rw [le_div_iff₀ hf', mul_comm]
    exact h
  have hlog : (1:ℝ)/12 ≤ Real.logb 2 ((g:ℝ)/(f:ℝ)) :=
    (Real.le_logb_iff_rpow_le one_lt_two hdiv).mpr hrle
  unfold semitoneApart
  rw [show (f:ℝ)/(g:ℝ) = ((g:ℝ)/(f:ℝ))⁻¹ from (inv_div _ _).symm,
    Real.logb_inv, mul_neg, abs_neg, abs_of_nonneg (by linarith)]
  linarith

/-- A first-pass peak in the NaN-faithful refinement of the peak finder:
`frequency = none` models a NaN refined frequency of the source. -/
structure PeakF where
  frequency : Option ℚ
  magnitude : ℕ
  deriving DecidableEq

/-- The NaN-faithful parabolic-interpolation offset.  The source computes
`0.5 * (α - γ) / (α - 2β + γ)` in IEEE arithmetic and then clamps: with a zero
denominator and `α ≠ γ` the quotient is `±Infinity` and the clamp produces
exactly `±1/2`; with `α = β = γ` the quotient is `0/0 = NaN`, which the clamp
preserves — modelled as `none`. -/
def peakOffsetF (data : List ℕ) (pb : ℤ) : Option ℚ :=
  let alpha : ℚ := getI data (pb-1)
  let beta : ℚ := getI data pb
  let gamma : ℚ := getI data (pb+1)
  if alpha - 2*beta + gamma = 0 then
    if gamma < alpha then some (1/2)
    else if alpha < gamma then some (-(1/2))
    else none
  else some (max (-(1/2)) (min (1/2) ((1/2) * (alpha - gamma) / (alpha - 2*beta + gamma))))

/-- The refined peak of the NaN-faithful pass: the frequency is `none` when the
parabolic offset is NaN (NaN propagates through `(peakBin + offset) * binSize`). -/
def mkPeakF (data : List ℕ) (binSize : ℚ) (i : ℤ) : PeakF :=
  let r := refineBin data (smoothedAt data i) i
  ⟨(peakOffsetF data r.1).map (fun o => ((r.1 : ℚ) + o) * binSize), r.2⟩

/-- The deduplication test on possibly-NaN frequencies: a NaN operand makes the
source's `|12 * Math.log2(f / g)| < 1` comparison false. -/
def semitoneCloseF : Option ℚ → Option ℚ → Prop
  | some f, some g => semitoneClose f g
  | _, _ => False

open scoped Classical in
/-- `dedupInsert` on possibly-NaN peaks: the same walk; a NaN candidate or a
NaN accepted entry never tests close, so NaN peaks are always appended and
never replace or get replaced. -/
noncomputable def dedupInsertF (c : PeakF) : List PeakF → List PeakF
  | [] => [c]
  | p :: rest =>
    if semitoneCloseF p.frequency c.frequency then
      if p.magnitude < c.magnitude then c :: rest else p :: rest
    else p :: dedupInsertF c rest

open scoped Classical in
/-- The first pass of the NaN-faithful refinement. -/
noncomputable def scanBinsF (data : List ℕ) (binSize : ℚ) (minBin : ℤ) :
    List ℤ → List PeakF → List PeakF
  | [], acc => acc
  | i :: rest, acc =>
    scanBinsF data binSize minBin rest
      (if isCandidate data minBin i then dedupInsertF (mkPeakF data binSize i) acc else acc)

/-- The accepted first-pass peaks of the NaN-faithful refinement. -/
noncomputable def candidatePeaksF (data : List ℕ) (sampleRate fftSize : ℚ) : List PeakF :=
  let binSize := sampleRate / fftSize
  let minBin := ⌊(80:ℚ) / binSize⌋
  let maxBin := ⌊(1200:ℚ) / binSize⌋
  scanBinsF data binSize minBin (binRange data.length minBin maxBin) []

/-- Stable sort by descending magnitude on possibly-NaN peaks. -/
def sortPeaksF (l : List PeakF) : List PeakF :=
  List.insertionSort (fun a b => b.magnitude ≤ a.magnitude) l

/-- The harmonic test on possibly-NaN frequencies: a NaN on either side makes
the source's `|f / (g * h) - 1| < 0.03` comparison false. -/
def isHarmonicF (p : PeakF) (kept : List PeakF) : Bool :=
  kept.any fun q =>
    [2, 3, 4].any fun h =>
      match p.frequency, q.frequency with
      | some f, some g => decide (|f / (g * (h:ℚ)) - 1| < 3/100)
      | _, _ => false

/-- The harmonic-suppression pass on possibly-NaN peaks. -/
def filterHarmonicsF (peakCount : ℕ) : List PeakF → List PeakF → List PeakF
  | [], kept => kept
  | p :: rest, kept =>
    if isHarmonicF p kept then filterHarmonicsF peakCount rest kept
    else
      if peakCount ≤ (kept ++ [p]).length then kept ++ [p]
      else filterHarmonicsF peakCount rest (kept ++ [p])

/-- `findFrequencyPeaks` in the NaN-faithful refinement: the returned frequency
list, with `none` standing for a NaN entry of the source's result array. -/
noncomputable def findFrequencyPeaksF (data : List ℕ) (sampleRate fftSize : ℚ)
    (peakCount : ℕ := 6) : List (Option ℚ) :=
  (filterHarmonicsF peakCount (sortPeaksF (candidatePeaksF data sampleRate fftSize)) []).map
    (·.frequency)

/-- The claimed separation property on possibly-NaN frequencies: with a NaN
operand the source's `|12 * log2(f/g)| >= 1` comparison is false. -/
def semitoneApartF : Option ℚ → Option ℚ → Prop
  | some f, some g => semitoneApart f g
  | _, _ => False

/-- One-semitone separation restricted to pairs of defined (non-NaN)
frequencies; pairs with a NaN member are exempt. -/
def semitoneApartD : Option ℚ → Option ℚ → Prop
  | some f, some g => semitoneApart f g
  | _, _ => True

/-- The invariant relation of the NaN-faithful scan: ascending multiplicative
separation on defined frequencies, no constraint on NaN entries. -/
def mulSepO : Option ℚ → Option ℚ → Prop
  | some a, some b => (a : ℝ) * semitoneRatio ≤ (b : ℝ)
  | _, _ => True

/-- Positivity on defined frequencies. -/
def freqPosF : Option ℚ → Prop
  | some a => 0 < a
  | none => True

/-- Order on defined frequencies. -/
def freqLeF : Option ℚ → Option ℚ → Prop
  | some a, some b => a ≤ b
  | _, _ => True

lemma semitoneCloseF_none_left (y : Option ℚ) : ¬ semitoneCloseF none y := by
  cases y <;> exact fun h => h

lemma mulSepO_none_left (y : Option ℚ) : mulSepO none y := by
  cases y <;> exact True.intro

lemma mulSepO_none_right (x : Option ℚ) : mulSepO x none := by
  cases x <;> exact True.intro

lemma semitoneApartD_none_left (y : Option ℚ) : semitoneApartD none y := by
  cases y <;> exact True.intro

lemma semitoneApartD_none_right (x : Option ℚ) : semitoneApartD x none := by
  cases x <;> exact True.intro

lemma freqLeF_none_left (y : Option ℚ) : freqLeF none y := by
  cases y <;> exact True.intro

lemma freqLeF_none_right (x : Option ℚ) : freqLeF x none := by
  cases x <;> exact True.intro

lemma freqLeF_refl (f : Option ℚ) : freqLeF f f := by
  cases f
  · exact True.intro
  · exact le_refl _

lemma semitoneApartD_symm : ∀ (f g : Option ℚ), semitoneApartD f g → semitoneApartD g f
  | some _, some _, h => semitoneApart_symm h
  | some _, none, _ => True.intro
  | none, some _, _ => True.intro
  | none, none, _ => True.intro

lemma peakOffsetF_bounds {data : List ℕ} {pb : ℤ} {o : ℚ}
    (h : peakOffsetF data pb = some o) : -(1/2 : ℚ) ≤ o ∧ o ≤ 1/2 := by
  simp only [peakOffsetF] at h
  split_ifs at h
  all_goals
    first
      | exact Option.noConfusion h
      | (rw [Option.some.injEq] at h
         subst h
         refine ⟨?_, ?_⟩
         · first
             | exact le_max_left _ _
             | norm_num
         · first
             | exact max_le (by norm_num) (min_le_left _ _)
             | norm_num)

lemma mkPeakF_frequency (data : List ℕ) (b : ℚ) (i : ℤ) :
    (mkPeakF data b i).frequency =
      (peakOffsetF data (refineBin data (smoothedAt data i) i).1).map
        (fun o => (((refineBin data (smoothedAt data i) i).1 : ℚ) + o) * b) := rfl

/-- Candidate bins are at least two apart (adjacent strict local maxima are
impossible), so refined frequencies of candidates are monotone in their bins
wherever both are defined (a NaN frequency poses no constraint). -/
lemma mkPeakF_freq_mono {data : List ℕ} {m : ℤ} {b : ℚ} (hb : 0 ≤ b) {i j : ℤ}
    (hij : i < j) (hi : isCandidate data m i) (hj : isCandidate data m j) :
    freqLeF (mkPeakF data b i).frequency (mkPeakF data b j).frequency := by
  have h2 : i + 2 ≤ j := by
    rcases eq_or_lt_of_le (by omega : i + 1 ≤ j) with he | hlt
    · exact absurd hj (he ▸ fun hc => candidates_not_adjacent hi hc)
    · omega
  have hri := refineBin_fst_range data (smoothedAt data i) i
  have hrj := refineBin_fst_range data (smoothedAt data j) j
  have key : (refineBin data (smoothedAt data i) i).1 ≤
      (refineBin data (smoothedAt data j) j).1 := by omega
  rw [mkPeakF_frequency, mkPeakF_frequency]
  rcases lt_or_eq_of_le key with hlt | he
  · cases hoi : peakOffsetF data (refineBin data (smoothedAt data i) i).1 with
    | none => exact freqLeF_none_left _
    | some oi =>
      cases hoj : peakOffsetF data (refineBin data (smoothedAt data j) j).1 with
      | none => exact freqLeF_none_right _
      | some oj =>
        have hboi := peakOffsetF_bounds hoi
        have hboj := peakOffsetF_bounds hoj
        have hcast : ((refineBin data (smoothedAt data i) i).1 : ℚ) + 1 ≤
            ((refineBin data (smoothedAt data j) j).1 : ℚ) := by exact_mod_cast hlt
        exact mul_le_mul_of_nonneg_right (by linarith) hb
  · rw [he]
    exact freqLeF_refl _

/-- For positive bin width, every candidate's defined refined frequency is
positive (candidates live at bins at least 3, so the refined bin is at least 2
and the clamped offset cannot cancel it). -/
lemma mkPeakF_freq_pos {data : List ℕ} {m i : ℤ} {b : ℚ} (hb : 0 < b)
    (h : isCandidate data m i) : freqPosF (mkPeakF data b i).frequency := by
  have h3 := candidate_bin_ge_three h
  have hr := refineBin_fst_range data (smoothedAt data i) i
  rw [mkPeakF_frequency]
  cases ho : peakOffsetF data (refineBin data (smoothedAt data i) i).1 with
  | none => exact True.intro
  | some o =>
    have hbo := peakOffsetF_bounds ho
    have hcast : (2 : ℚ) ≤ ((refineBin data (smoothedAt data i) i).1 : ℚ) := by
      exact_mod_cast (by omega : (2:ℤ) ≤ (refineBin data (smoothedAt data i) i).1)
    exact mul_pos (by linarith) hb

lemma mem_dedupInsertF {c q : PeakF} :
    ∀ {acc : List PeakF}, q ∈ dedupInsertF c acc → q ∈ acc ∨ q = c
  | [], h => by
    rw [show dedupInsertF c [] = [c] from rfl] at h
    exact Or.inr (by simpa using h)
  | p :: rest, h => by
    rw [dedupInsertF] at h
    split at h
    · split at h
      · rcases List.mem_cons.mp h with hc | hr
        · exact Or.inr hc
        · exact Or.inl (List.mem_cons_of_mem _ hr)
      · exact Or.inl h
    · rcases List.mem_cons.mp h with hp | hr
      · exact Or.inl (hp ▸ List.mem_cons_self _ _)
      · rcases mem_dedupInsertF hr with h1 | h2
        · exact Or.inl (List.mem_cons_of_mem _ h1)
        · exact Or.inr h2

/-- The core deduplication invariant of the NaN-faithful pass: inserting a
candidate whose defined frequency would be positive and at least every accepted
defined frequency preserves pairwise separation-on-defined and
positivity-on-defined.  A close test only ever succeeds between defined
frequencies — and then only against the last defined (highest) accepted peak:
every entry after a close one must be NaN. -/
lemma dedupInsertF_preserves (c : PeakF) (hc : freqPosF c.frequency) :
    ∀ acc : List PeakF, acc.Pairwise (fun p q => mulSepO p.frequency q.frequency) →
      (∀ p ∈ acc, freqPosF p.frequency) →
      (∀ p ∈ acc, freqLeF p.frequency c.frequency) →
      (dedupInsertF c acc).Pairwise (fun p q => mulSepO p.frequency q.frequency) ∧
        (∀ p ∈ dedupInsertF c acc, freqPosF p.frequency)
  | [], _, _, _ => by
    refine ⟨?_, ?_⟩ <;> simp [show dedupInsertF c [] = [c] from rfl, hc]
  | p :: rest, hpw, hpos, hle => by
    have hp : freqPosF p.frequency := hpos p (List.mem_cons_self _ _)
    have hplec : freqLeF p.frequency c.frequency := hle p (List.mem_cons_self _ _)
    rw [dedupInsertF]
    by_cases hclose : semitoneCloseF p.frequency c.frequency
    · rw [if_pos hclose]
      have hrest : ∀ q ∈ rest, q.frequency = none := by
        intro q hq
        cases hqf : q.frequency with
        | none => rfl
        | some fq =>
          exfalso
          cases hpf : p.frequency with
          | none =>
            rw [hpf] at hclose
            exact semitoneCloseF_none_left _ hclose
          | some fp =>
            cases hcf : c.frequency with
            | none =>
              rw [hpf, hcf] at hclose
              exact hclose
            | some fc =>
              have hfp : 0 < fp := by rw [hpf] at hp; exact hp
              have hfc : 0 < fc := by rw [hcf] at hc; exact hc
              have hclose' : semitoneClose fp fc := by
                rw [hpf, hcf] at hclose; exact hclose
              have hsep : mulSepO p.frequency q.frequency :=
                (List.pairwise_cons.mp hpw).1 q hq
              have hsep' : (fp:ℝ) * semitoneRatio ≤ (fq:ℝ) := by
                rw [hpf, hqf] at hsep; exact hsep
              have hqle : freqLeF q.frequency c.frequency :=
                hle q (List.mem_cons_of_mem _ hq)
              have hqle' : fq ≤ fc := by rw [hqf, hcf] at hqle; exact hqle
              have hcl := ((semitoneClose_iff hfp hfc).mp hclose').1
              have hqc' : (fq:ℝ) ≤ (fc:ℝ) := by exact_mod_cast hqle'
              linarith
      split_ifs
      · refine ⟨List.pairwise_cons.mpr ⟨fun q hq => ?_, (List.pairwise_cons.mp hpw).2⟩,
          fun q hq => ?_⟩
        · show mulSepO c.frequency q.frequency
          rw [hrest q hq]
          exact mulSepO_none_right _
        · rcases List.mem_cons.mp hq with rfl | hq'
          · exact hc
          · exact hpos q (List.mem_cons_of_mem _ hq')
      · exact ⟨hpw, hpos⟩
    · rw [if_neg hclose]
      obtain ⟨ihpw, ihpos⟩ :=
        dedupInsertF_preserves c hc rest (List.pairwise_cons.mp hpw).2
          (fun q hq => hpos q (List.mem_cons_of_mem _ hq))
          (fun q hq => hle q (List.mem_cons_of_mem _ hq))
      refine ⟨List.pairwise_cons.mpr ⟨?_, ihpw⟩, ?_⟩
      · intro q hq
        rcases mem_dedupInsertF hq with hq' | heq
        · exact (List.pairwise_cons.mp hpw).1 q hq'
        · show mulSepO p.frequency q.frequency
          rw [heq]
          cases hpf : p.frequency with
          | none => exact mulSepO_none_left _
          | some fp =>
            cases hcf : c.frequency with
            | none => exact mulSepO_none_right _
            | some fc =>
              have hfp : 0 < fp := by rw [hpf] at hp; exact hp
              have hfc : 0 < fc := by rw [hcf] at hc; exact hc
              have hlef : fp ≤ fc := by rw [hpf, hcf] at hplec; exact hplec
              have hnc : ¬ semitoneClose fp fc := by
                rw [hpf, hcf] at hclose; exact hclose
              exact mulSep_of_not_close hfp hfc hlef hnc
      · intro q hq
        rcases List.mem_cons.mp hq with rfl | hq'
        · exact hp
        · exact ihpos q hq'

lemma scanBinsF_cons_neg {data : List ℕ} {m i : ℤ} (b : ℚ) (rest : List ℤ)
    (acc : List PeakF) (h : ¬ isCandidate data m i) :
    scanBinsF data b m (i :: rest) acc = scanBinsF data b m rest acc := by
  simp only [scanBinsF, if_neg h]

lemma scanBinsF_cons_pos {data : List ℕ} {m i : ℤ} (b : ℚ) (rest : List ℤ)
    (acc : List PeakF) (h : isCandidate data m i) :
    scanBinsF data b m (i :: rest) acc =
      scanBinsF data b m rest (dedupInsertF (mkPeakF data b i) acc) := by
  simp only [scanBinsF, if_pos h]

/-- The scan invariant of the NaN-faithful pass: processing ascending bins
keeps the accepted list pairwise multiplicatively separated on defined
frequencies, with every defined frequency positive. -/
lemma scanBinsF_invariant {data : List ℕ} {m : ℤ} {b : ℚ} (hb : 0 < b) :
    ∀ (bins : List ℤ) (acc : List PeakF),
      bins.Pairwise (· < ·) →
      acc.Pairwise (fun p q => mulSepO p.frequency q.frequency) →
      (∀ p ∈ acc, freqPosF p.frequency) →
      (∀ i ∈ bins, isCandidate data m i →
        ∀ p ∈ acc, freqLeF p.frequency (mkPeakF data b i).frequency) →
      (scanBinsF data b m bins acc).Pairwise (fun p q => mulSepO p.frequency q.frequency) ∧
        ∀ p ∈ scanBinsF data b m bins acc, freqPosF p.frequency
  | [], acc, _, hpw, hpos, _ => ⟨hpw, hpos⟩
  | i :: rest, acc, hbins, hpw, hpos, hbound => by
    have hbins' := (List.pairwise_cons.mp hbins).2
    by_cases hc : isCandidate data m i
    · rw [scanBinsF_cons_pos _ _ _ hc]
      obtain ⟨dpw, dpos⟩ :=
        dedupInsertF_preserves (mkPeakF data b i) (mkPeakF_freq_pos hb hc)
          acc hpw hpos (hbound i (List.mem_cons_self _ _) hc)
      exact scanBinsF_invariant hb rest _ hbins' dpw dpos
        (fun j hj hcj p hp => by
          rcases mem_dedupInsertF hp with hp' | rfl
          · exact hbound j (List.mem_cons_of_mem _ hj) hcj p hp'
          · exact mkPeakF_freq_mono hb.le ((List.pairwise_cons.mp hbins).1 j hj) hc hcj)
    · rw [scanBinsF_cons_neg _ _ _ hc]
      exact scanBinsF_invariant hb rest acc hbins' hpw hpos
        (fun j hj hcj p hp => hbound j (List.mem_cons_of_mem _ hj) hcj p hp)

/-- The accepted peaks of the NaN-faithful first pass are pairwise
multiplicatively separated on defined frequencies, which are all positive, for
every spectrum, sample rate and FFT size. -/
lemma candidatePeaksF_invariant (data : List ℕ) (sampleRate fftSize : ℚ) :
    (candidatePeaksF data sampleRate fftSize).Pairwise
        (fun p q => mulSepO p.frequency q.frequency) ∧
      ∀ p ∈ candidatePeaksF data sampleRate fftSize, freqPosF p.frequency := by
  simp only [candidatePeaksF]
  rcases le_or_lt (sampleRate / fftSize) 0 with hb | hb
  · rw [binRange_eq_nil_of_nonpos hb]
    exact ⟨List.Pairwise.nil, fun p hp => absurd hp (List.not_mem_nil p)⟩
  · exact scanBinsF_invariant hb _ [] (binRange_pairwise _ _ _) List.Pairwise.nil
      (fun p hp => absurd hp (List.not_mem_nil p))
      (fun i _ _ p hp => absurd hp (List.not_mem_nil p))

lemma pairwise_semitoneApartD {l : List PeakF}
    (hpw : l.Pairwise (fun p q => mulSepO p.frequency q.frequency))
    (hpos : ∀ p ∈ l, freqPosF p.frequency) :
    l.Pairwise (fun p q => semitoneApartD p.frequency q.frequency) := by
  refine List.Pairwise.imp_of_mem ?_ hpw
  intro p q hp hq hsep
  show semitoneApartD p.frequency q.frequency
  cases hpf : p.frequency with
  | none => exact semitoneApartD_none_left _
  | some a =>
    cases hqf : q.frequency with
    | none => exact semitoneApartD_none_right _
    | some bq =>
      have ha : 0 < a := by have h1 := hpos p hp; rw [hpf] at h1; exact h1
      have hb2 : 0 < bq := by have h1 := hpos q hq; rw [hqf] at h1; exact h1
      have hsep' : (a:ℝ) * semitoneRatio ≤ (bq:ℝ) := by
        rw [hpf, hqf] at hsep; exact hsep
      exact semitoneApart_of_ratio ha hb2 hsep'

lemma filterHarmonicsF_sublist (k : ℕ) :
    ∀ (l kept : List PeakF), (filterHarmonicsF k l kept).Sublist (kept ++ l)
  | [], kept => by simp [filterHarmonicsF]
  | p :: rest, kept => by
    rw [filterHarmonicsF]
    split
    · exact (filterHarmonicsF_sublist k rest kept).trans
        (List.Sublist.append_left (List.sublist_cons_self p rest) kept)
    · split
      · exact List.Sublist.append_left
          (List.cons_sublist_cons.mpr (List.nil_sublist rest)) kept
      · have h := filterHarmonicsF_sublist k rest (kept ++ [p])
        rw [List.append_assoc] at h
        simpa using h

/-- C2 (amended): within one detection call the returned peak frequencies are
pairwise at least one semitone apart among all peaks whose refined frequency is
defined.  A candidate whose three raw magnitudes around its refined bin are
equal gets a NaN frequency (0/0 in the parabolic interpolation), which defeats
every subsequent comparison and can be returned un-separated next to other
peaks; every pair of defined frequencies remains separated. -/
theorem c2_pairwise_semitone_defined (data : List ℕ) (sampleRate fftSize : ℚ)
    (peakCount : ℕ) :
    (findFrequencyPeaksF data sampleRate fftSize peakCount).Pairwise semitoneApartD := by
  obtain ⟨hpw, hpos⟩ := candidatePeaksF_invariant data sampleRate fftSize
  have hkey := pairwise_semitoneApartD hpw hpos
  have hsym : Symmetric (fun p q : PeakF => semitoneApartD p.frequency q.frequency) :=
    fun p q h => semitoneApartD_symm _ _ h
  have hsort : (sortPeaksF (candidatePeaksF data sampleRate fftSize)).Pairwise
      (fun p q => semitoneApartD p.frequency q.frequency) :=
    ((List.perm_insertionSort _ _).pairwise_iff (fun h => hsym h)).mpr hkey
  have hsub := filterHarmonicsF_sublist peakCount
    (sortPeaksF (candidatePeaksF data sampleRate fftSize)) []
  simp only [List.nil_append] at hsub
  have hfil := hsort.sublist hsub
  unfold findFrequencyPeaksF
  rw [List.pairwise_map]
  exact hfil

lemma dedupInsertF_cons_notclose (c p : PeakF) (rest : List PeakF)
    (h : ¬ semitoneCloseF p.frequency c.frequency) :
    dedupInsertF c (p :: rest) = p :: dedupInsertF c rest := by
  rw [dedupInsertF, if_neg h]

/-- A 20-bin spectrum with two accepted candidates.  At bin 8 the spectral
energy sits entirely outside the three-bin refinement window, so the three raw
magnitudes around the refined bin are all 0 and the parabolic interpolation
computes `0/0 = NaN`; at bin 13 a normal peak refines to 290 Hz. -/
def spectrumNaNPeak : List ℕ :=
  [0, 0, 0, 0, 0, 255, 255, 0, 0, 0, 255, 255, 60, 120, 200, 255, 200, 120, 60, 0]

/-- With sample rate 400 and FFT size 20 (bin width 20 Hz), the NaN-faithful
first pass on `spectrumNaNPeak` accepts the NaN peak (magnitude 145) and the
290 Hz peak (magnitude 200): the NaN frequency fails every closeness test, so
deduplication appends it untouched. -/
lemma candidatePeaksF_spectrumNaNPeak :
    candidatePeaksF spectrumNaNPeak 400 20 = [⟨none, 145⟩, ⟨some 290, 200⟩] := by
  have hb : (400:ℚ)/20 = 20 := by norm_num
  simp only [candidatePeaksF]
  rw [hb, show ⌊(80:ℚ)/20⌋ = 4 by norm_num, show ⌊(1200:ℚ)/20⌋ = 60 by norm_num,
    show binRange spectrumNaNPeak.length 4 60 =
        [4, 5, 6, 7, 8, 9, 10, 11, 12, 13, 14, 15, 16, 17, 18]
      from by with_unfolding_all decide]
  rw [scanBinsF_cons_neg _ _ _ (not_isCandidate_of_left (by with_unfolding_all decide))]
  rw [scanBinsF_cons_neg _ _ _ (not_isCandidate_of_left (by with_unfolding_all decide))]
  rw [scanBinsF_cons_neg _ _ _ (not_isCandidate_of_left (by with_unfolding_all decide))]
  rw [scanBinsF_cons_neg _ _ _ (not_isCandidate_of_right (by with_unfolding_all decide))]
  rw [scanBinsF_cons_pos _ _ _
    ⟨by rw [show smoothedAt spectrumNaNPeak 8 = 145 from by with_unfolding_all decide]
        exact thrOK_of_big (by norm_num) (by norm_num) (by norm_num),
     by with_unfolding_all decide, by with_unfolding_all decide⟩]
  rw [scanBinsF_cons_neg _ _ _ (not_isCandidate_of_left (by with_unfolding_all decide))]
  rw [scanBinsF_cons_neg _ _ _ (not_isCandidate_of_left (by with_unfolding_all decide))]
  rw [scanBinsF_cons_neg _ _ _ (not_isCandidate_of_right (by with_unfolding_all decide))]
  rw [scanBinsF_cons_neg _ _ _ (not_isCandidate_of_right (by with_unfolding_all decide))]
  rw [scanBinsF_cons_pos _ _ _
    ⟨by rw [show smoothedAt spectrumNaNPeak 13 = 192 from by with_unfolding_all decide]
        exact thrOK_of_big (by norm_num) (by norm_num) (by norm_num),
     by with_unfolding_all decide, by with_unfolding_all decide⟩]
  rw [scanBinsF_cons_neg _ _ _ (not_isCandidate_of_left (by with_unfolding_all decide))]
  rw [scanBinsF_cons_neg _ _ _ (not_isCandidate_of_left (by with_unfolding_all decide))]
  rw [scanBinsF_cons_neg _ _ _ (not_isCandidate_of_left (by with_unfolding_all decide))]
  rw [scanBinsF_cons_neg _ _ _ (not_isCandidate_of_left (by with_unfolding_all decide))]
  rw [scanBinsF_cons_neg _ _ _ (not_isCandidate_of_left (by with_unfolding_all decide))]
  rw [show mkPeakF spectrumNaNPeak 20 8 = ⟨none, 145⟩ from by with_unfolding_all decide,
    show mkPeakF spectrumNaNPeak 20 13 = ⟨some 290, 200⟩ from by with_unfolding_all decide]
  rw [show dedupInsertF (⟨none, 145⟩ : PeakF) [] = [⟨none, 145⟩] from rfl]
  rw [dedupInsertF_cons_notclose ⟨some 290, 200⟩ ⟨none, 145⟩ []
    (semitoneCloseF_none_left _)]
  rfl

lemma findFrequencyPeaksF_spectrumNaNPeak :
    findFrequencyPeaksF spectrumNaNPeak 400 20 6 = [some 290, none] := by
  unfold findFrequencyPeaksF
  rw [candidatePeaksF_spectrumNaNPeak]
  with_unfolding_all decide

/-- C2 counterexample: on `spectrumNaNPeak` (sample rate 400, FFT size 20) the
program returns two peaks — 290 Hz and a NaN frequency produced by the flat raw
window at the first candidate — and the claimed pairwise one-semitone
separation `|12 * log2(f/g)| >= 1` fails on the returned list, because every
comparison against the NaN frequency is false. -/
theorem c2_counterexample :
    findFrequencyPeaksF spectrumNaNPeak 400 20 6 = [some 290, none] ∧
    ¬ (findFrequencyPeaksF spectrumNaNPeak 400 20 6).Pairwise semitoneApartF := by
  refine ⟨findFrequencyPeaksF_spectrumNaNPeak, ?_⟩
  rw [findFrequencyPeaksF_spectrumNaNPeak]
  intro h
  exact (List.pairwise_cons.mp h).1 none (List.mem_cons_self _ _)
